import Mathlib

/-!
Verification development for `atlasV2Gen.py`, the Atlas-v2 LED-layout
generator.  The script is a deterministic batch transform: a ring table
(ring id → LED count, reversed flag) plus three scalars (grid size,
matrix width, vertical-flip flag) are turned into a 3D voxel map, a 2D
matrix and a CSV wiring report.

Embedding conventions:
* The ring table (a Python dict iterated over `sorted(rings.keys())`) is a
  `List (ℕ × ℕ × Bool)` of `(ring_id, led_count, reversed)` triples, listed
  in ascending `ring_id` order.
* Python floats are idealised as exact rationals `ℚ`.  `float(round(x))`
  rounds half to even, which `pyRound` reproduces exactly.
* `math.cos`/`math.sin` and `math.pi` are transcendental; no claim below
  depends on their values, so the voxel pipeline is parameterised over an
  arbitrary rational-valued approximation `trig : ℚ → ℚ × ℚ` (cosine and
  sine of an angle) and a rational `piF` standing for the float `math.pi`.
  Every theorem about the 3D pipeline quantifies over both parameters.
* The Python dict `positions` is kept as the chronological list of writes
  `(x, y, z) ↦ channel`; dict semantics (last write wins) is recovered by
  reading the list from its tail, and the safety claims below are about
  the written keys themselves.
-/

/-- Half-to-even rounding on rationals: the exact behaviour of Python's
`round` (and hence `int(round(x))`) on a float that holds this value. -/
def pyRound (q : ℚ) : ℤ :=
  if Int.fract q < 1/2 then ⌊q⌋
  else if 1/2 < Int.fract q then ⌊q⌋ + 1
  else if ⌊q⌋ % 2 = 0 then ⌊q⌋ else ⌊q⌋ + 1

/-- Exact value of `np.linspace(a, b, num := n, endpoint := True)`:
`n` evenly spaced samples over the closed interval `[a, b]`. -/
def linspaceClosed (a b : ℚ) (n : ℕ) : List ℚ :=
  if n = 1 then [a]
  else (List.range n).map (fun (p : ℕ) => a + (b - a) * (p : ℚ) / ((n : ℚ) - 1))

/-- Exact value of `np.linspace(a, b, num := n, endpoint := False)`:
`n` evenly spaced samples over the half-open interval `[a, b)`. -/
def linspaceOpen (a b : ℚ) (n : ℕ) : List ℚ :=
  (List.range n).map (fun (p : ℕ) => a + (b - a) * (p : ℚ) / (n : ℚ))

/-- A row of matrix cells: `none` is the empty string cell, `some c` holds
channel `c`.  `row_arr = [""] * width` is `List.replicate width none`. -/
def cellAt (row : List (Option ℕ)) (j : ℕ) : Option ℕ :=
  row.getD j none

/-- Apply a chronological list of writes `column ↦ channel` to a row;
`row_arr[idx] = str(ch)` is `List.set`, later writes overwrite earlier. -/
def applyWrites (row : List (Option ℕ)) (ws : List (ℕ × ℕ)) : List (Option ℕ) :=
  ws.foldl (fun r w => r.set w.1 (some w.2)) row

/-- First write whose column is `j` (used to read back `applyWrites`). -/
def findWrite : List (ℕ × ℕ) → ℕ → Option ℕ
  | [], _ => none
  | w :: rest, j => if j = w.1 then some w.2 else findWrite rest j

/-- Left-biased choice on optional channels. -/
def orO : Option ℕ → Option ℕ → Option ℕ
  | some v, _ => some v
  | none, b => b

/-! ### Embedding of `atlasV2Gen.py` -/

/-- `get_max_leds`: maximum `led_count` over the ring table.  Python's
`max` raises `ValueError` on an empty dict, hence the `Option`. -/
def get_max_leds (rings : List (ℕ × ℕ × Bool)) : Option ℕ :=
  match rings with
  | [] => none
  | r :: rs => some (rs.foldl (fun m s => max m s.2.1) r.2.1)

/-- Maximum LED count with the (never reached) default 0. -/
def maxLedsD (rings : List (ℕ × ℕ × Bool)) : ℕ :=
  (get_max_leds rings).getD 0

/-- `padding = grid_size * 0.1`. -/
def paddingOf (G : ℕ) : ℚ := (G : ℚ) * (1/10)

/-- `usable_radius = (grid_size / 2) - padding`. -/
def usableRadius (G : ℕ) : ℚ := (G : ℚ) / 2 - paddingOf G

/-- `radius_in_led_units = max_leds / (2 * pi)`. -/
def radiusInLedUnits (piF : ℚ) (maxLeds : ℕ) : ℚ := (maxLeds : ℚ) / (2 * piF)

/-- `voxels_per_led_pitch = usable_radius / radius_in_led_units`; this one
scalar is also the `vertical_step`. -/
def vperOf (piF : ℚ) (G maxLeds : ℕ) : ℚ :=
  usableRadius G / radiusInLedUnits piF maxLeds

/-- `total_height_voxels = (total_rings - 1) * vertical_step`. -/
def totalHOf (vper : ℚ) (nRings : ℕ) : ℚ := ((nRings : ℚ) - 1) * vper

/-- `start_y = (grid_size - total_height_voxels) / 2`. -/
def startYOf (G : ℕ) (totalH : ℚ) : ℚ := ((G : ℚ) - totalH) / 2

/-- The unrounded vertical coordinate of the ring at sorted-order index
`i`: `grid_y = (start_y + total_height) - i*step` when flipped, else
`start_y + i*step`. -/
def gridY (start_y total_h step : ℚ) (flip : Bool) (i : ℕ) : ℚ :=
  if flip then (start_y + total_h) - (i : ℚ) * step
  else start_y + (i : ℚ) * step

/-- `max(0, min(grid_size - 1, v))`: the coordinate clamp. -/
def clampI (G : ℕ) (v : ℤ) : ℤ := max 0 (min ((G : ℤ) - 1) v)

/-- `pixel_indices = list(range(count)); if is_reversed: reverse()`. -/
def pixelIndices (count : ℕ) (rev : Bool) : List ℕ :=
  if rev then (List.range count).reverse else List.range count

/-- The `p`-th of `count` angles: `np.linspace(0, 2*pi, count, endpoint=False)[p]`. -/
def thetaAt (piF : ℚ) (count p : ℕ) : ℚ :=
  (linspaceOpen 0 (2 * piF) count).getD p 0

/-- One ring of the 3D loop body: for each generated index `p`, the
clamped rounded `(x, y, z)` cell together with the channel
`current_channel + pixel_indices[p]`. -/
def ringPoints (trig : ℚ → ℚ × ℚ) (piF : ℚ) (G : ℕ) (vper grid_y : ℚ)
    (count : ℕ) (rev : Bool) (ch : ℕ) : List ((ℤ × ℤ × ℤ) × ℕ) :=
  (List.range count).map (fun p =>
    let center : ℚ := (G : ℚ) / 2
    let current_radius_led_units : ℚ := (count : ℚ) / (2 * piF)
    let current_radius_voxels : ℚ := current_radius_led_units * vper
    let raw_x : ℚ := current_radius_voxels * (trig (thetaAt piF count p)).1
    let raw_z : ℚ := current_radius_voxels * (trig (thetaAt piF count p)).2
    let grid_x : ℤ := clampI G (pyRound (center + raw_x))
    let final_y : ℤ := clampI G (pyRound grid_y)
    let grid_z : ℤ := clampI G (pyRound (center + raw_z))
    ((grid_x, final_y, grid_z), ch + (pixelIndices count rev).getD p 0))

/-- The ring loop of `calculate_physically_accurate_positions`, threading
the 0-based sorted index `i` and the running `current_channel`. -/
def solverLoop (trig : ℚ → ℚ × ℚ) (piF : ℚ) (G : ℕ)
    (vper start_y total_h : ℚ) (flip : Bool) :
    ℕ → ℕ → List (ℕ × ℕ × Bool) → List ((ℤ × ℤ × ℤ) × ℕ)
  | _, _, [] => []
  | i, ch, r :: rest =>
      ringPoints trig piF G vper (gridY start_y total_h vper flip i) r.2.1 r.2.2 ch
        ++ solverLoop trig piF G vper start_y total_h flip (i + 1) (ch + r.2.1) rest

/-- `calculate_physically_accurate_positions`: scale derivation plus the
per-ring loop.  Fails (Python `ValueError` from `max`) on an empty table.
The "model too tall" branch only prints a warning and is semantically
inert. -/
def calculate_physically_accurate_positions (trig : ℚ → ℚ × ℚ) (piF : ℚ)
    (rings : List (ℕ × ℕ × Bool)) (G : ℕ) (flip : Bool) :
    Option (List ((ℤ × ℤ × ℤ) × ℕ)) :=
  match get_max_leds rings with
  | none => none
  | some max_leds =>
      some (solverLoop trig piF G (vperOf piF G max_leds)
        (startYOf G (totalHOf (vperOf piF G max_leds) rings.length))
        (totalHOf (vperOf piF G max_leds) rings.length) flip 0 1 rings)

/-- The `i`-th of the 2D generator's evenly spaced positions:
`np.linspace(0, width - 1, num := count, endpoint := True)[i]`. -/
def locAt (width count i : ℕ) : ℚ :=
  (linspaceClosed 0 ((width : ℚ) - 1) count).getD i 0

/-- `idx = int(round(pos)); if idx >= width: idx = width - 1`.  (A negative
`idx` never arises for `width ≥ 1` since all positions are `≥ 0`.) -/
def colClamp (width : ℕ) (v : ℤ) : ℕ :=
  if (width : ℤ) ≤ v then width - 1 else v.toNat

/-- Final column of the `i`-th generated LED of a ring in the 2D matrix. -/
def colNat (width count i : ℕ) : ℕ :=
  colClamp width (pyRound (locAt width count i))

/-- Chronological writes of one 2D matrix row: the `i`-th generated LED
puts channel `current_ch + i` at its rounded, clamped column. -/
def rowWrites (width ch count : ℕ) : List (ℕ × ℕ) :=
  (List.range count).map (fun i => (colNat width count i, ch + i))

/-- One 2D matrix row before the zigzag reversal. -/
def buildRowCells (width ch count : ℕ) : List (Option ℕ) :=
  applyWrites (List.replicate width none) (rowWrites width ch count)

/-- One 2D matrix row: `if is_rev: row_arr.reverse()` after placement. -/
def rowCellsFinal (width ch count : ℕ) (rev : Bool) : List (Option ℕ) :=
  if rev then (buildRowCells width ch count).reverse
  else buildRowCells width ch count

/-- Modelled from the spec (§4.2 step 4 transported to the 2D row, the
comparison object of the refinement claim): permute source indices before
placement, assigning channel `ch + (count - 1 - i)` to the slot generated
at index `i`, with no post-placement reversal. -/
def rowWrites3dStyle (width ch count : ℕ) (rev : Bool) : List (ℕ × ℕ) :=
  (List.range count).map (fun i =>
    (colNat width count i, ch + (if rev then count - 1 - i else i)))

/-- Modelled from the spec: the row obtained by the pre-placement
permutation of `rowWrites3dStyle`. -/
def rowCells3dStyle (width ch count : ℕ) (rev : Bool) : List (Option ℕ) :=
  applyWrites (List.replicate width none) (rowWrites3dStyle width ch count rev)

/-- Cell rendering: empty string for an empty slot, decimal channel else. -/
def cellStr (c : Option ℕ) : String :=
  match c with
  | none => ""
  | some n => toString n

/-- Within-row cell delimiter of the `CustomModel` strings. -/
def sepComma : String := ","

/-- Between-row delimiter of the 2D `CustomModel` string. -/
def sepSemi : String := ";"

/-- `",".join(row_arr)`. -/
def renderRow (cells : List (Option ℕ)) : String :=
  String.intercalate sepComma (cells.map cellStr)

/-- The row loop of `generate_2d_matrix`, threading `current_ch`. -/
def matrixRows : List (ℕ × ℕ × Bool) → ℕ → ℕ → List String
  | [], _, _ => []
  | r :: rest, width, ch =>
      renderRow (rowCellsFinal width ch r.2.1 r.2.2) :: matrixRows rest width (ch + r.2.1)

/-- `generate_2d_matrix`: build one row per ring in sorted order, then, if
the global flip is enabled, reverse the row order; join by `;`. -/
def generate_2d_matrix (rings : List (ℕ × ℕ × Bool)) (width : ℕ) (do_flip : Bool) : String :=
  String.intercalate sepSemi
    (if do_flip then (matrixRows rings width 1).reverse else matrixRows rings width 1)

/-- Direction label of a forward ring in the CSV report. -/
def normalLabel : String := "Normal ( ---> )"

/-- Direction label of a reversed ring in the CSV report. -/
def reverseLabel : String := "Reverse ( <--- )"

/-- Line terminator of the CSV report. -/
def lineBreak : String := "\n"

/-- Start/end channel pairs of the CSV loop: `end_led = report_led + count - 1`,
then `report_led += count`. -/
def csvStarts : List (ℕ × ℕ × Bool) → ℕ → List (ℕ × ℕ)
  | [], _ => []
  | r :: rest, led => (led, led + r.2.1 - 1) :: csvStarts rest (led + r.2.1)

/-- The CSV data lines, in ring_id order, threading `report_led`. -/
def csvLines : List (ℕ × ℕ × Bool) → ℕ → List String
  | [], _ => []
  | r :: rest, led =>
      (toString r.1 ++ sepComma ++ (if r.2.2 then reverseLabel else normalLabel)
        ++ sepComma ++ toString r.2.1 ++ sepComma ++ toString led
        ++ sepComma ++ toString (led + r.2.1 - 1) ++ lineBreak)
        :: csvLines rest (led + r.2.1)

/-- Header line of the CSV report. -/
def csvHeader : String := "Ring,Direction,LED Count,Start Channel,End Channel\n"

/-- The whole CSV report body. -/
def csvReport (rings : List (ℕ × ℕ × Bool)) : String :=
  csvHeader ++ String.join (csvLines rings 1)

/-- Sum of the LED counts of the first `k` rings. -/
def preCount (rings : List (ℕ × ℕ × Bool)) (k : ℕ) : ℕ :=
  ((rings.take k).map (fun r => r.2.1)).sum

/-- The 1-based start channel of the ring at sorted index `k`:
the running total `1 + Σ_{j<k} led_count_j`. -/
def ringStart (rings : List (ℕ × ℕ × Bool)) (k : ℕ) : ℕ :=
  1 + preCount rings k

/-- LED count of the ring at sorted index `k`. -/
def ringCount (rings : List (ℕ × ℕ × Bool)) (k : ℕ) : ℕ :=
  (rings.getD k (0, 0, false)).2.1

/-- Reversed flag of the ring at sorted index `k`. -/
def ringRev (rings : List (ℕ × ℕ × Bool)) (k : ℕ) : Bool :=
  (rings.getD k (0, 0, false)).2.2

/-- Ring id of the ring at sorted index `k`. -/
def ringIdAt (rings : List (ℕ × ℕ × Bool)) (k : ℕ) : ℕ :=
  (rings.getD k (0, 0, false)).1

/-- Bounds check of one voxel write: all three coordinates in `[0, G-1]`. -/
def inBoundsB (G : ℕ) (e : (ℤ × ℤ × ℤ) × ℕ) : Bool :=
  decide (0 ≤ e.1.1) && decide (e.1.1 ≤ (G : ℤ) - 1)
    && decide (0 ≤ e.1.2.1) && decide (e.1.2.1 ≤ (G : ℤ) - 1)
    && decide (0 ≤ e.1.2.2) && decide (e.1.2.2 ≤ (G : ℤ) - 1)

/-- A predicate holds of every write of an optional write list. -/
def optionAll (p : (ℤ × ℤ × ℤ) × ℕ → Bool) :
    Option (List ((ℤ × ℤ × ℤ) × ℕ)) → Bool
  | none => true
  | some l => l.all p

/-! ### Properties of the rounding function -/

theorem pyRound_intCast (m : ℤ) : pyRound (m : ℚ) = m := by
  unfold pyRound
  rw [Int.fract_intCast, Int.floor_intCast]
  norm_num

theorem le_pyRound (q : ℚ) : q - 1/2 ≤ (pyRound q : ℚ) := by
  have hq := Int.floor_add_fract q
  have h0 := Int.fract_nonneg q
  have h1 := Int.fract_lt_one q
  unfold pyRound
  split_ifs <;> push_cast <;> linarith

theorem pyRound_le (q : ℚ) : (pyRound q : ℚ) ≤ q + 1/2 := by
  have hq := Int.floor_add_fract q
  have h0 := Int.fract_nonneg q
  have h1 := Int.fract_lt_one q
  unfold pyRound
  split_ifs <;> push_cast <;> linarith

theorem pyRound_lt_pyRound (x y : ℚ) (h : x + 1 < y) : pyRound x < pyRound y := by
  have hx := pyRound_le x
  have hy := le_pyRound y
  have hlt : (pyRound x : ℚ) < (pyRound y : ℚ) := by linarith
  exact_mod_cast hlt

theorem pyRound_le_int (q : ℚ) (m : ℤ) (h : q ≤ (m : ℚ)) : pyRound q ≤ m := by
  have h1 := pyRound_le q
  have h2 : (pyRound q : ℚ) < (m : ℚ) + 1 := by linarith
  have h3 : pyRound q < m + 1 := by exact_mod_cast h2
  omega

theorem int_le_pyRound (q : ℚ) (m : ℤ) (h : (m : ℚ) ≤ q) : m ≤ pyRound q := by
  have h1 := le_pyRound q
  have h2 : (m : ℚ) - 1 < (pyRound q : ℚ) := by linarith
  have h3 : m - 1 < pyRound q := by exact_mod_cast h2
  omega

theorem pyRound_sub (c : ℤ) (q : ℚ) (h : Int.fract q ≠ 1/2) :
    pyRound ((c : ℚ) - q) = c - pyRound q := by
  rcases eq_or_lt_of_le (Int.fract_nonneg q) with h0 | h0
  · have hq : q = (⌊q⌋ : ℚ) := by
      have := Int.floor_add_fract q
      rw [← h0] at this
      linarith
    rw [hq]
    have hcast : (c : ℚ) - (⌊q⌋ : ℚ) = ((c - ⌊q⌋ : ℤ) : ℚ) := by push_cast; ring
    rw [hcast, pyRound_intCast, pyRound_intCast]
  · have hfq := Int.floor_add_fract q
    have h1 := Int.fract_lt_one q
    have hfl : ⌊(c : ℚ) - q⌋ = c - ⌊q⌋ - 1 := by
      rw [Int.floor_eq_iff]
      constructor <;> push_cast <;> linarith
    have hfr : Int.fract ((c : ℚ) - q) = 1 - Int.fract q := by
      rw [← Int.self_sub_floor, hfl, ← Int.self_sub_floor]
      push_cast
      ring
    unfold pyRound
    rw [hfr, hfl]
    split_ifs <;> first
      | omega
      | (exfalso; apply h; linarith)

/-! ### Reading rows back from write lists -/

theorem orO_some (v : ℕ) (b : Option ℕ) : orO (some v) b = some v := rfl

theorem orO_none (b : Option ℕ) : orO none b = b := rfl

theorem orO_none_right (a : Option ℕ) : orO a none = a := by
  cases a <;> rfl

theorem orO_assoc (a b c : Option ℕ) : orO (orO a b) c = orO a (orO b c) := by
  cases a <;> rfl

theorem length_applyWrites (ws : List (ℕ × ℕ)) :
    ∀ row : List (Option ℕ), (applyWrites row ws).length = row.length := by
  induction ws with
  | nil => intro row; rfl
  | cons w ws ih =>
      intro row
      show (applyWrites (row.set w.1 (some w.2)) ws).length = row.length
      rw [ih]
      exact List.length_set row w.1 (some w.2)

theorem cellAt_set_self (row : List (Option ℕ)) (j : ℕ) (v : Option ℕ)
    (hj : j < row.length) : cellAt (row.set j v) j = v := by
  simp [cellAt, List.getD_eq_getElem?_getD, List.getElem?_set_self hj]

theorem cellAt_set_ne (row : List (Option ℕ)) (j k : ℕ) (v : Option ℕ)
    (h : j ≠ k) : cellAt (row.set k v) j = cellAt row j := by
  simp [cellAt, List.getD_eq_getElem?_getD, List.getElem?_set_ne (Ne.symm h)]

theorem cellAt_replicate (W j : ℕ) : cellAt (List.replicate W (none : Option ℕ)) j = none := by
  simp only [cellAt, List.getD_eq_getElem?_getD, List.getElem?_replicate]
  split <;> rfl

theorem cellAt_cons_succ (c : Option ℕ) (rest : List (Option ℕ)) (j : ℕ) :
    cellAt (c :: rest) (j + 1) = cellAt rest j := rfl

theorem findWrite_append (ws₁ ws₂ : List (ℕ × ℕ)) (j : ℕ) :
    findWrite (ws₁ ++ ws₂) j = orO (findWrite ws₁ j) (findWrite ws₂ j) := by
  induction ws₁ with
  | nil => rfl
  | cons w ws ih =>
      by_cases hj : j = w.1 <;> simp [findWrite, hj, ih, orO_some, orO_none]

theorem findWrite_eq_none (ws : List (ℕ × ℕ)) (j : ℕ) (h : ∀ w ∈ ws, w.1 ≠ j) :
    findWrite ws j = none := by
  induction ws with
  | nil => rfl
  | cons w ws ih =>
      have hw : w.1 ≠ j := h w (List.mem_cons_self w ws)
      simp only [findWrite, if_neg (Ne.symm hw ∘ Eq.symm)]
      rw [if_neg fun hh => hw hh.symm]
      exact ih fun w' hw' => h w' (List.mem_cons_of_mem w hw')

theorem findWrite_eq_some (ws : List (ℕ × ℕ)) (j v : ℕ) (hmem : (j, v) ∈ ws)
    (hnd : (ws.map Prod.fst).Nodup) : findWrite ws j = some v := by
  induction ws with
  | nil => exact absurd hmem (List.not_mem_nil _)
  | cons w ws ih =>
      rw [List.map_cons, List.nodup_cons] at hnd
      rcases List.mem_cons.mp hmem with heq | hmem'
      · rw [← heq]
        simp [findWrite]
      · have hjmem : j ∈ ws.map Prod.fst := List.mem_map.mpr ⟨(j, v), hmem', rfl⟩
        have hne : j ≠ w.1 := fun hh => hnd.1 (hh ▸ hjmem)
        simp only [findWrite, if_neg hne]
        exact ih hmem' hnd.2

theorem findWrite_reverse (ws : List (ℕ × ℕ)) (j : ℕ)
    (hnd : (ws.map Prod.fst).Nodup) : findWrite ws.reverse j = findWrite ws j := by
  induction ws with
  | nil => rfl
  | cons w ws ih =>
      rw [List.map_cons, List.nodup_cons] at hnd
      rw [List.reverse_cons, findWrite_append, ih hnd.2]
      by_cases hj : j = w.1
      · subst hj
        have hnone : findWrite ws w.1 = none := by
          apply findWrite_eq_none
          intro w' hw' hh
          have hmem : w'.1 ∈ ws.map Prod.fst := List.mem_map.mpr ⟨w', hw', rfl⟩
          rw [hh] at hmem
          exact hnd.1 hmem
        simp [findWrite, hnone, orO_none]
      · simp [findWrite, hj, orO_none_right]

theorem cellAt_applyWrites (ws : List (ℕ × ℕ)) :
    ∀ (row : List (Option ℕ)) (j : ℕ), (∀ w ∈ ws, w.1 < row.length) → j < row.length →
    cellAt (applyWrites row ws) j = orO (findWrite ws.reverse j) (cellAt row j) := by
  induction ws with
  | nil => intro row j _ _; rfl
  | cons w ws ih =>
      intro row j hw hj
      have hw1 : w.1 < row.length := hw w (List.mem_cons_self w ws)
      have step : cellAt (row.set w.1 (some w.2)) j = orO (findWrite [w] j) (cellAt row j) := by
        by_cases hjw : j = w.1
        · rw [hjw, cellAt_set_self row w.1 (some w.2) hw1]
          simp [findWrite, orO_some]
        · rw [cellAt_set_ne row j w.1 (some w.2) hjw]
          simp [findWrite, hjw, orO_none]
      show cellAt (applyWrites (row.set w.1 (some w.2)) ws) j = _
      rw [ih (row.set w.1 (some w.2)) j
          (fun w' hw' => by
            rw [List.length_set]
            exact hw w' (List.mem_cons_of_mem w hw'))
          (by rw [List.length_set]; exact hj),
        step, List.reverse_cons, findWrite_append, orO_assoc]

theorem countP_set_some (row : List (Option ℕ)) :
    ∀ (j v : ℕ), j < row.length → cellAt row j = none →
    (row.set j (some v)).countP (fun c => c.isSome)
      = row.countP (fun c => c.isSome) + 1 := by
  induction row with
  | nil => intro j v hj _; simp at hj
  | cons c rest ih =>
      intro j v hj hnone
      cases j with
      | zero =>
          have hc : c = none := hnone
          subst hc
          simp [List.countP_cons]
      | succ j =>
          have hj' : j < rest.length := by simpa using hj
          have hnone' : cellAt rest j = none := hnone
          show ((c :: rest.set j (some v)).countP fun c => c.isSome) = _
          rw [List.countP_cons, List.countP_cons, ih j v hj' hnone']
          omega

theorem countP_applyWrites (ws : List (ℕ × ℕ)) :
    ∀ row : List (Option ℕ), (∀ w ∈ ws, w.1 < row.length) →
    ((ws.map Prod.fst).Nodup) → (∀ w ∈ ws, cellAt row w.1 = none) →
    (applyWrites row ws).countP (fun c => c.isSome)
      = row.countP (fun c => c.isSome) + ws.length := by
  induction ws with
  | nil => intro row _ _ _; rfl
  | cons w ws ih =>
      intro row hlt hnd hnone
      rw [List.map_cons, List.nodup_cons] at hnd
      have hw1 : w.1 < row.length := hlt w (List.mem_cons_self w ws)
      show (applyWrites (row.set w.1 (some w.2)) ws).countP _ = _
      rw [ih (row.set w.1 (some w.2))
          (fun w' hw' => by
            rw [List.length_set]
            exact hlt w' (List.mem_cons_of_mem w hw'))
          hnd.2
          (fun w' hw' => by
            have hne : w'.1 ≠ w.1 := fun hh =>
              hnd.1 (hh ▸ List.mem_map.mpr ⟨w', hw', rfl⟩)
            rw [cellAt_set_ne row w'.1 w.1 (some w.2) hne]
            exact hnone w' (List.mem_cons_of_mem w hw')),
        countP_set_some row w.1 w.2 hw1 (hnone w (List.mem_cons_self w ws))]
      simp [List.length_cons]
      omega

theorem countP_replicate_none (W : ℕ) :
    (List.replicate W (none : Option ℕ)).countP (fun c => c.isSome) = 0 := by
  induction W with
  | zero => rfl
  | succ n ih => rw [List.replicate_succ, List.countP_cons]; simp [ih]

theorem row_ext (r₁ r₂ : List (Option ℕ)) (hlen : r₁.length = r₂.length)
    (h : ∀ j < r₁.length, cellAt r₁ j = cellAt r₂ j) : r₁ = r₂ := by
  apply List.ext_getElem hlen
  intro i h1 h2
  have hc := h i h1
  simpa [cellAt, List.getD_eq_getElem?_getD, List.getElem?_eq_getElem, h1, h2] using hc

/-! ### The evenly spaced 2D positions and their rounded columns -/

theorem linspaceClosed_length (a b : ℚ) (n : ℕ) : (linspaceClosed a b n).length = n := by
  unfold linspaceClosed
  split
  · simp [*]
  · rw [List.length_map, List.length_range]

theorem locAt_eq (width count i : ℕ) (h2 : 2 ≤ count) (hi : i < count) :
    locAt width count i = ((width : ℚ) - 1) * i / ((count : ℚ) - 1) := by
  unfold locAt linspaceClosed
  rw [if_neg (by omega), List.getD_eq_getElem?_getD, List.getElem?_map,
    List.getElem?_range hi]
  simp only [Option.map_some', Option.getD_some]
  ring

theorem count_cast_sub_one_pos (count : ℕ) (h2 : 2 ≤ count) : (0 : ℚ) < (count : ℚ) - 1 := by
  have : (2 : ℚ) ≤ (count : ℚ) := by exact_mod_cast h2
  linarith

theorem locAt_zero (width count : ℕ) (h1 : 1 ≤ count) : locAt width count 0 = 0 := by
  rcases eq_or_lt_of_le h1 with h | h
  · unfold locAt linspaceClosed
    rw [if_pos h.symm]
    rfl
  · rw [locAt_eq width count 0 (by omega) (by omega)]
    simp

theorem locAt_last (width count : ℕ) (h2 : 2 ≤ count) :
    locAt width count (count - 1) = (width : ℚ) - 1 := by
  rw [locAt_eq width count (count - 1) h2 (by omega)]
  have hc := count_cast_sub_one_pos count h2
  have hcast : ((count - 1 : ℕ) : ℚ) = (count : ℚ) - 1 := by
    have h1 : 1 ≤ count := by omega
    push_cast [h1]
    ring
  rw [hcast]
  field_simp

theorem locAt_gap (width count i : ℕ) (h2 : 2 ≤ count) (hi : i + 1 < count) :
    locAt width count (i + 1) - locAt width count i
      = ((width : ℚ) - 1) / ((count : ℚ) - 1) := by
  rw [locAt_eq width count (i + 1) h2 hi, locAt_eq width count i h2 (by omega)]
  have hc := count_cast_sub_one_pos count h2
  push_cast
  field_simp
  ring

theorem locAt_nonneg (width count i : ℕ) (h1 : 1 ≤ count) (hW : 1 ≤ width)
    (hi : i < count) : 0 ≤ locAt width count i := by
  rcases eq_or_lt_of_le h1 with h | h
  · have h0 : i = 0 := by omega
    rw [h0, locAt_zero width count h1]
  · rw [locAt_eq width count i (by omega) hi]
    have hc := count_cast_sub_one_pos count (by omega)
    have hw : (1 : ℚ) ≤ (width : ℚ) := by exact_mod_cast hW
    have hw1 : (0 : ℚ) ≤ (width : ℚ) - 1 := by linarith
    have hi0 : (0 : ℚ) ≤ (i : ℚ) := by positivity
    exact div_nonneg (mul_nonneg hw1 hi0) (le_of_lt hc)

theorem locAt_le (width count i : ℕ) (h1 : 1 ≤ count) (hW : 1 ≤ width)
    (hi : i < count) : locAt width count i ≤ (width : ℚ) - 1 := by
  rcases eq_or_lt_of_le h1 with h | h
  · have h0 : i = 0 := by omega
    rw [h0, locAt_zero width count h1]
    have hw : (1 : ℚ) ≤ (width : ℚ) := by exact_mod_cast hW
    linarith
  · rw [locAt_eq width count i (by omega) hi]
    have hc := count_cast_sub_one_pos count (by omega)
    have hw : (1 : ℚ) ≤ (width : ℚ) := by exact_mod_cast hW
    rw [div_le_iff₀ hc]
    have hiq : (i : ℚ) ≤ (count : ℚ) - 1 := by
      have : (i : ℚ) + 1 ≤ (count : ℚ) := by exact_mod_cast hi
      linarith
    nlinarith

theorem pyRound_locAt_nonneg (width count i : ℕ) (h1 : 1 ≤ count) (hW : 1 ≤ width)
    (hi : i < count) : 0 ≤ pyRound (locAt width count i) := by
  have := int_le_pyRound (locAt width count i) 0
    (by simpa using locAt_nonneg width count i h1 hW hi)
  simpa using this

theorem pyRound_locAt_lt_width (width count i : ℕ) (h1 : 1 ≤ count)
    (hc : count ≤ width) (hi : i < count) :
    pyRound (locAt width count i) < (width : ℤ) := by
  have hW : 1 ≤ width := le_trans h1 hc
  have hle := pyRound_le_int (locAt width count i) ((width : ℤ) - 1)
    (by push_cast; exact locAt_le width count i h1 hW hi)
  omega

theorem locAt_diag (width count i : ℕ) (h2 : 2 ≤ count) (hcw : count = width)
    (hi : i < count) : locAt width count i = (i : ℚ) := by
  subst hcw
  rw [locAt_eq count count i h2 hi]
  have hc := count_cast_sub_one_pos count h2
  field_simp

theorem pyRound_locAt_strictMono (width count i : ℕ) (h1 : 1 ≤ count)
    (hc : count ≤ width) (hi : i + 1 < count) :
    pyRound (locAt width count i) < pyRound (locAt width count (i + 1)) := by
  have h2 : 2 ≤ count := by omega
  rcases eq_or_lt_of_le hc with hcw | hcw
  · rw [locAt_diag width count i h2 hcw (by omega),
      locAt_diag width count (i + 1) h2 hcw hi]
    have ha : pyRound ((i : ℚ)) = (i : ℤ) := by
      have := pyRound_intCast (i : ℤ)
      simpa using this
    have hb : pyRound (((i : ℕ) + 1 : ℚ)) = (i : ℤ) + 1 := by
      have := pyRound_intCast ((i : ℤ) + 1)
      push_cast at this ⊢
      simpa using this
    rw [ha]
    push_cast
    rw [hb]
    omega
  · apply pyRound_lt_pyRound
    have hgap := locAt_gap width count i h2 hi
    have hone : (1 : ℚ) < ((width : ℚ) - 1) / ((count : ℚ) - 1) := by
      rw [one_lt_div (count_cast_sub_one_pos count h2)]
      have : (count : ℚ) < (width : ℚ) := by exact_mod_cast hcw
      linarith
    linarith

theorem colNat_eq_toNat (width count i : ℕ) (h1 : 1 ≤ count) (hc : count ≤ width)
    (hi : i < count) : colNat width count i = (pyRound (locAt width count i)).toNat := by
  unfold colNat colClamp
  rw [if_neg (by
    have := pyRound_locAt_lt_width width count i h1 hc hi
    omega)]

theorem colNat_lt_width (width count i : ℕ) (h1 : 1 ≤ count) (hc : count ≤ width)
    (hi : i < count) : colNat width count i < width := by
  rw [colNat_eq_toNat width count i h1 hc hi]
  have h1' := pyRound_locAt_nonneg width count i h1 (le_trans h1 hc) hi
  have h2' := pyRound_locAt_lt_width width count i h1 hc hi
  omega

theorem colNat_strictMono (width count i : ℕ) (h1 : 1 ≤ count) (hc : count ≤ width)
    (hi : i + 1 < count) : colNat width count i < colNat width count (i + 1) := by
  rw [colNat_eq_toNat width count i h1 hc (by omega),
    colNat_eq_toNat width count (i + 1) h1 hc hi]
  have ha := pyRound_locAt_nonneg width count i h1 (le_trans h1 hc) (by omega)
  have hb := pyRound_locAt_strictMono width count i h1 hc hi
  omega

theorem colNat_lt_of_lt (width count : ℕ) (h1 : 1 ≤ count) (hc : count ≤ width) :
    ∀ i j : ℕ, i < j → j < count → colNat width count i < colNat width count j := by
  intro i j
  induction j with
  | zero => omega
  | succ j ih =>
      intro hij hj
      rcases Nat.lt_succ_iff_lt_or_eq.mp hij with h | h
      · exact lt_trans (ih h (by omega)) (colNat_strictMono width count j h1 hc hj)
      · subst h
        exact colNat_strictMono width count i h1 hc hj

theorem colNat_zero (width count : ℕ) (h1 : 1 ≤ count) (hW : 1 ≤ width) :
    colNat width count 0 = 0 := by
  unfold colNat colClamp
  rw [locAt_zero width count h1]
  have h0 : pyRound (0 : ℚ) = 0 := by
    have := pyRound_intCast 0
    simpa using this
  rw [h0, if_neg (by omega)]
  rfl

theorem colNat_last (width count : ℕ) (h2 : 2 ≤ count) (hc : count ≤ width) :
    colNat width count (count - 1) = width - 1 := by
  unfold colNat colClamp
  rw [locAt_last width count h2]
  have hW : 2 ≤ width := le_trans h2 hc
  have h0 : pyRound ((width : ℚ) - 1) = (width : ℤ) - 1 := by
    have := pyRound_intCast ((width : ℤ) - 1)
    push_cast at this
    simpa using this
  rw [h0, if_neg (by omega)]
  omega

/-! ### Reading the generated 2D rows cell by cell -/

theorem rowWrites_keys (width ch count : ℕ) :
    (rowWrites width ch count).map Prod.fst
      = (List.range count).map (colNat width count) := by
  unfold rowWrites
  rw [List.map_map]
  rfl

theorem rowWrites3dStyle_keys (width ch count : ℕ) (rev : Bool) :
    (rowWrites3dStyle width ch count rev).map Prod.fst
      = (List.range count).map (colNat width count) := by
  unfold rowWrites3dStyle
  rw [List.map_map]
  rfl

theorem colNat_range_nodup (width count : ℕ) (h1 : 1 ≤ count) (hc : count ≤ width) :
    ((List.range count).map (colNat width count)).Nodup := by
  apply (List.nodup_range count).map_on
  intro x hx y hy hxy
  rcases lt_trichotomy x y with h | h | h
  · exact absurd hxy
      (ne_of_lt (colNat_lt_of_lt width count h1 hc x y h (List.mem_range.mp hy)))
  · exact h
  · exact absurd hxy.symm
      (ne_of_lt (colNat_lt_of_lt width count h1 hc y x h (List.mem_range.mp hx)))

theorem rowWrites_keys_nodup (width ch count : ℕ) (h1 : 1 ≤ count) (hc : count ≤ width) :
    ((rowWrites width ch count).map Prod.fst).Nodup := by
  rw [rowWrites_keys]
  exact colNat_range_nodup width count h1 hc

theorem rowWrites3dStyle_keys_nodup (width ch count : ℕ) (rev : Bool)
    (h1 : 1 ≤ count) (hc : count ≤ width) :
    ((rowWrites3dStyle width ch count rev).map Prod.fst).Nodup := by
  rw [rowWrites3dStyle_keys]
  exact colNat_range_nodup width count h1 hc

theorem rowWrites_keys_lt (width ch count : ℕ) (h1 : 1 ≤ count) (hc : count ≤ width) :
    ∀ w ∈ rowWrites width ch count, w.1 < width := by
  intro w hw
  unfold rowWrites at hw
  rcases List.mem_map.mp hw with ⟨i, hi, rfl⟩
  exact colNat_lt_width width count i h1 hc (List.mem_range.mp hi)

theorem rowWrites3dStyle_keys_lt (width ch count : ℕ) (rev : Bool)
    (h1 : 1 ≤ count) (hc : count ≤ width) :
    ∀ w ∈ rowWrites3dStyle width ch count rev, w.1 < width := by
  intro w hw
  unfold rowWrites3dStyle at hw
  rcases List.mem_map.mp hw with ⟨i, hi, rfl⟩
  exact colNat_lt_width width count i h1 hc (List.mem_range.mp hi)

theorem length_buildRowCells (width ch count : ℕ) :
    (buildRowCells width ch count).length = width := by
  unfold buildRowCells
  rw [length_applyWrites, List.length_replicate]

theorem length_rowCells3dStyle (width ch count : ℕ) (rev : Bool) :
    (rowCells3dStyle width ch count rev).length = width := by
  unfold rowCells3dStyle
  rw [length_applyWrites, List.length_replicate]

theorem cellAt_buildRowCells (width ch count j : ℕ) (h1 : 1 ≤ count)
    (hc : count ≤ width) (hj : j < width) :
    cellAt (buildRowCells width ch count) j = findWrite (rowWrites width ch count) j := by
  unfold buildRowCells
  rw [cellAt_applyWrites (rowWrites width ch count) (List.replicate width none) j
      (by
        intro w hw
        rw [List.length_replicate]
        exact rowWrites_keys_lt width ch count h1 hc w hw)
      (by rw [List.length_replicate]; exact hj),
    findWrite_reverse _ _ (rowWrites_keys_nodup width ch count h1 hc),
    cellAt_replicate, orO_none_right]

theorem cellAt_rowCells3dStyle (width ch count j : ℕ) (rev : Bool) (h1 : 1 ≤ count)
    (hc : count ≤ width) (hj : j < width) :
    cellAt (rowCells3dStyle width ch count rev) j
      = findWrite (rowWrites3dStyle width ch count rev) j := by
  unfold rowCells3dStyle
  rw [cellAt_applyWrites (rowWrites3dStyle width ch count rev) (List.replicate width none) j
      (by
        intro w hw
        rw [List.length_replicate]
        exact rowWrites3dStyle_keys_lt width ch count rev h1 hc w hw)
      (by rw [List.length_replicate]; exact hj),
    findWrite_reverse _ _ (rowWrites3dStyle_keys_nodup width ch count rev h1 hc),
    cellAt_replicate, orO_none_right]

theorem findWrite_rowWrites_colNat (width ch count i : ℕ) (h1 : 1 ≤ count)
    (hc : count ≤ width) (hi : i < count) :
    findWrite (rowWrites width ch count) (colNat width count i) = some (ch + i) := by
  apply findWrite_eq_some
  · unfold rowWrites
    exact List.mem_map.mpr ⟨i, List.mem_range.mpr hi, rfl⟩
  · exact rowWrites_keys_nodup width ch count h1 hc

theorem findWrite_rowWrites_none (width ch count j : ℕ)
    (h : ∀ i < count, colNat width count i ≠ j) :
    findWrite (rowWrites width ch count) j = none := by
  apply findWrite_eq_none
  intro w hw
  unfold rowWrites at hw
  rcases List.mem_map.mp hw with ⟨i, hi, rfl⟩
  exact h i (List.mem_range.mp hi)

theorem findWrite_rowWrites3dStyle_colNat (width ch count i : ℕ) (rev : Bool)
    (h1 : 1 ≤ count) (hc : count ≤ width) (hi : i < count) :
    findWrite (rowWrites3dStyle width ch count rev) (colNat width count i)
      = some (ch + (if rev then count - 1 - i else i)) := by
  apply findWrite_eq_some
  · unfold rowWrites3dStyle
    exact List.mem_map.mpr ⟨i, List.mem_range.mpr hi, rfl⟩
  · exact rowWrites3dStyle_keys_nodup width ch count rev h1 hc

theorem findWrite_rowWrites3dStyle_none (width ch count j : ℕ) (rev : Bool)
    (h : ∀ i < count, colNat width count i ≠ j) :
    findWrite (rowWrites3dStyle width ch count rev) j = none := by
  apply findWrite_eq_none
  intro w hw
  unfold rowWrites3dStyle at hw
  rcases List.mem_map.mp hw with ⟨i, hi, rfl⟩
  exact h i (List.mem_range.mp hi)

theorem cellAt_reverse (row : List (Option ℕ)) (j : ℕ) (hj : j < row.length) :
    cellAt row.reverse j = cellAt row (row.length - 1 - j) := by
  have hj' : j < row.reverse.length := by simpa using hj
  have hj'' : row.length - 1 - j < row.length := by omega
  unfold cellAt
  rw [List.getD_eq_getElem?_getD, List.getD_eq_getElem?_getD,
    List.getElem?_eq_getElem hj', List.getElem?_eq_getElem hj'',
    List.getElem_reverse]

theorem colNat_diag (width count j : ℕ) (h2 : 2 ≤ count) (hcw : count = width)
    (hj : j < count) : colNat width count j = j := by
  unfold colNat colClamp
  rw [locAt_diag width count j h2 hcw hj]
  have h0 : pyRound ((j : ℕ) : ℚ) = (j : ℤ) := by
    have := pyRound_intCast (j : ℤ)
    push_cast at this ⊢
    simpa using this
  rw [h0, if_neg (by omega)]
  omega

theorem cellAt_map_range (f : ℕ → Option ℕ) (n j : ℕ) (hj : j < n) :
    cellAt ((List.range n).map f) j = f j := by
  unfold cellAt
  rw [List.getD_eq_getElem?_getD, List.getElem?_map, List.getElem?_range hj]
  rfl

theorem length_rowWrites (width ch count : ℕ) :
    (rowWrites width ch count).length = count := by
  unfold rowWrites
  rw [List.length_map, List.length_range]

/-- C9: for every ring with `1 ≤ led_count ≤ W`, the rounded column
indices of the 2D rasterizer are strictly increasing in generation order,
so no two LEDs of a ring share a column, the overflow clamp to `W - 1`
never fires, and the (possibly reversed) row holds exactly `led_count`
nonempty cells. -/
theorem matrix_columns_strictly_increasing (width ch count : ℕ) (rev : Bool)
    (h1 : 1 ≤ count) (hc : count ≤ width) :
    List.Pairwise (· < ·) ((rowWrites width ch count).map Prod.fst)
    ∧ ((List.range count).all
        (fun i => decide (pyRound (locAt width count i) < (width : ℤ))) = true)
    ∧ ((rowWrites width ch count).map Prod.fst).Nodup
    ∧ (rowCellsFinal width ch count rev).countP (fun c => c.isSome) = count := by
  refine ⟨?_, ?_, rowWrites_keys_nodup width ch count h1 hc, ?_⟩
  · rw [rowWrites_keys, List.pairwise_map]
    apply List.Pairwise.imp_of_mem ?_ (List.pairwise_lt_range count)
    intro a b ha hb hab
    exact colNat_lt_of_lt width count h1 hc a b hab (List.mem_range.mp hb)
  · rw [List.all_eq_true]
    intro i hi
    exact decide_eq_true (pyRound_locAt_lt_width width count i h1 hc (List.mem_range.mp hi))
  · have hbase : (buildRowCells width ch count).countP (fun c => c.isSome) = count := by
      unfold buildRowCells
      rw [countP_applyWrites (rowWrites width ch count) (List.replicate width none)
          (by
            intro w hw
            rw [List.length_replicate]
            exact rowWrites_keys_lt width ch count h1 hc w hw)
          (rowWrites_keys_nodup width ch count h1 hc)
          (by intro w _; exact cellAt_replicate width w.1),
        countP_replicate_none, length_rowWrites]
      omega
    unfold rowCellsFinal
    cases rev
    · simpa using hbase
    · simpa using hbase

/-- C7: for every ring with `1 < led_count ≤ W`, the 2D rasterizer
generates `led_count` evenly spaced positions over the closed interval
`[0, W-1]`; after rounding, the first LED occupies column 0 and the last
LED occupies column `W - 1`, and when `led_count = W` every one of the
`W` columns of the (unreversed) row is occupied by consecutive channels. -/
theorem matrix_row_endpoints (width ch count : ℕ) (h2 : 1 < count) (hc : count ≤ width) :
    (linspaceClosed 0 ((width : ℚ) - 1) count).length = count
    ∧ locAt width count 0 = 0
    ∧ locAt width count (count - 1) = (width : ℚ) - 1
    ∧ cellAt (buildRowCells width ch count) 0 = some ch
    ∧ cellAt (buildRowCells width ch count) (width - 1) = some (ch + (count - 1))
    ∧ (if count = width
        then buildRowCells width ch count = (List.range width).map (fun j => some (ch + j))
        else True) := by
  have h1 : 1 ≤ count := by omega
  have hW : 1 ≤ width := le_trans h1 hc
  refine ⟨linspaceClosed_length 0 ((width : ℚ) - 1) count,
    locAt_zero width count h1, locAt_last width count (by omega), ?_, ?_, ?_⟩
  · rw [cellAt_buildRowCells width ch count 0 h1 hc (by omega),
      ← colNat_zero width count h1 hW,
      findWrite_rowWrites_colNat width ch count 0 h1 hc (by omega)]
    rfl
  · rw [cellAt_buildRowCells width ch count (width - 1) h1 hc (by omega),
      ← colNat_last width count (by omega) hc,
      findWrite_rowWrites_colNat width ch count (count - 1) h1 hc (by omega)]
  · split
    · rename_i hcw
      apply row_ext
      · rw [length_buildRowCells, List.length_map, List.length_range]
      · intro j hj
        rw [length_buildRowCells] at hj
        rw [cellAt_map_range _ width j hj,
          cellAt_buildRowCells width ch count j h1 hc hj]
        have hjc : j < count := by omega
        have hcol := colNat_diag width count j (by omega) hcw hjc
        rw [← hcol, findWrite_rowWrites_colNat width ch count j h1 hc hjc, hcol]
    · trivial

/-! ### Mirror symmetry of the 2D placement (refinement claim) -/

theorem locAt_mirror (width count i : ℕ) (h2 : 2 ≤ count) (hi : i < count) :
    locAt width count (count - 1 - i) = ((width : ℚ) - 1) - locAt width count i := by
  rw [locAt_eq width count (count - 1 - i) h2 (by omega),
    locAt_eq width count i h2 hi]
  have hc1 := count_cast_sub_one_pos count h2
  have h' : 1 + i ≤ count := by omega
  have hcast : ((count - 1 - i : ℕ) : ℚ) = (count : ℚ) - 1 - (i : ℚ) := by
    rw [Nat.sub_sub]
    push_cast [h']
    ring
  rw [hcast]
  field_simp
  ring

theorem locAt_mem_linspace (width count i : ℕ) (hi : i < count) :
    locAt width count i ∈ linspaceClosed 0 ((width : ℚ) - 1) count := by
  have hlen : i < (linspaceClosed 0 ((width : ℚ) - 1) count).length := by
    rw [linspaceClosed_length]
    exact hi
  unfold locAt
  rw [List.getD_eq_getElem?_getD, List.getElem?_eq_getElem hlen]
  exact List.getElem_mem hlen

theorem colNat_mirror (width count i : ℕ) (h2 : 2 ≤ count) (hc : count ≤ width)
    (hnt : ∀ q ∈ linspaceClosed 0 ((width : ℚ) - 1) count, Int.fract q ≠ 1/2)
    (hi : i < count) :
    colNat width count (count - 1 - i) = width - 1 - colNat width count i := by
  have h1 : 1 ≤ count := by omega
  have hf := hnt _ (locAt_mem_linspace width count i hi)
  rw [colNat_eq_toNat width count (count - 1 - i) h1 hc (by omega),
    colNat_eq_toNat width count i h1 hc hi,
    locAt_mirror width count i h2 hi]
  have hcast : ((width : ℚ) - 1) = (((width : ℤ) - 1 : ℤ) : ℚ) := by push_cast; ring
  rw [hcast, pyRound_sub ((width : ℤ) - 1) _ hf]
  have h0 := pyRound_locAt_nonneg width count i h1 (le_trans h1 hc) hi
  have hlt := pyRound_locAt_lt_width width count i h1 hc hi
  omega

theorem findWrite_mirror (width ch count j : ℕ) (h2 : 2 ≤ count) (hc : count ≤ width)
    (hnt : ∀ q ∈ linspaceClosed 0 ((width : ℚ) - 1) count, Int.fract q ≠ 1/2)
    (hj : j < width) :
    findWrite (rowWrites width ch count) (width - 1 - j)
      = findWrite (rowWrites3dStyle width ch count true) j := by
  have h1 : 1 ≤ count := by omega
  by_cases hex : ∃ i, i < count ∧ colNat width count i = width - 1 - j
  · obtain ⟨i, hi, hcol⟩ := hex
    have hkey : colNat width count (count - 1 - i) = j := by
      rw [colNat_mirror width count i h2 hc hnt hi, hcol]
      omega
    rw [← hcol, findWrite_rowWrites_colNat width ch count i h1 hc hi,
      ← hkey, findWrite_rowWrites3dStyle_colNat width ch count (count - 1 - i) true h1 hc (by omega)]
    congr 1
    simp only [if_pos]
    omega
  · push_neg at hex
    rw [findWrite_rowWrites_none width ch count (width - 1 - j)
        (fun i hi => hex i hi),
      findWrite_rowWrites3dStyle_none width ch count j true ?_]
    intro i hi hj'
    apply hex (count - 1 - i) (by omega)
    rw [colNat_mirror width count i h2 hc hnt hi, hj']

/-- C2 (amended): for a ring with `2 ≤ led_count ≤ W` none of whose evenly
spaced positions falls exactly midway between two integers, reversing the
completed row after placement (the 2D rasterizer) produces the same row as
permuting source indices before placement (the 3D rasterizer's rule). -/
theorem reverse_after_eq_permute_before (width ch count : ℕ) (rev : Bool)
    (h2 : 2 ≤ count) (hc : count ≤ width)
    (hnt : ∀ q ∈ linspaceClosed 0 ((width : ℚ) - 1) count, Int.fract q ≠ 1/2) :
    rowCellsFinal width ch count rev = rowCells3dStyle width ch count rev := by
  have h1 : 1 ≤ count := by omega
  cases rev
  · simp [rowCellsFinal, rowCells3dStyle, buildRowCells, rowWrites3dStyle, rowWrites]
  · have hrw : rowCellsFinal width ch count true
        = (buildRowCells width ch count).reverse := rfl
    apply row_ext
    · rw [hrw, List.length_reverse, length_buildRowCells,
        length_rowCells3dStyle]
    · intro j hj
      rw [hrw] at hj ⊢
      rw [List.length_reverse, length_buildRowCells] at hj
      rw [cellAt_reverse (buildRowCells width ch count) j
          (by rw [length_buildRowCells]; exact hj),
        length_buildRowCells,
        cellAt_buildRowCells width ch count (width - 1 - j) h1 hc (by omega),
        cellAt_rowCells3dStyle width ch count j true h1 hc hj]
      exact findWrite_mirror width ch count j h2 hc hnt hj

/-! ### Concrete column computations used by the concrete scenarios -/

theorem colNat_2_1_0 : colNat 2 1 0 = 0 := by
  have hloc : locAt 2 1 0 = 0 := by
    unfold locAt linspaceClosed
    norm_num
  unfold colNat colClamp
  rw [hloc]
  have hr : pyRound (0 : ℚ) = 0 := by
    unfold pyRound
    norm_num [Int.fract]
  rw [hr]
  norm_num

theorem colNat_2_3_0 : colNat 2 3 0 = 0 := by
  have hloc : locAt 2 3 0 = 0 := by
    unfold locAt linspaceClosed
    norm_num [List.range_succ, List.getD_cons_zero, List.getD_cons_succ]
  unfold colNat colClamp
  rw [hloc]
  have hr : pyRound (0 : ℚ) = 0 := by
    unfold pyRound
    norm_num [Int.fract]
  rw [hr]
  norm_num

theorem colNat_2_3_1 : colNat 2 3 1 = 0 := by
  have hloc : locAt 2 3 1 = 1/2 := by
    unfold locAt linspaceClosed
    norm_num [List.range_succ, List.getD_cons_zero, List.getD_cons_succ]
  unfold colNat colClamp
  rw [hloc]
  have hr : pyRound (1/2 : ℚ) = 0 := by
    unfold pyRound
    norm_num [Int.fract]
  rw [hr]
  norm_num

theorem colNat_2_3_2 : colNat 2 3 2 = 1 := by
  have hloc : locAt 2 3 2 = 1 := by
    unfold locAt linspaceClosed
    norm_num [List.range_succ, List.getD_cons_zero, List.getD_cons_succ]
  unfold colNat colClamp
  rw [hloc]
  have hr : pyRound (1 : ℚ) = 1 := by
    unfold pyRound
    norm_num [Int.fract]
  rw [hr]
  norm_num

theorem colNat_2_2_0 : colNat 2 2 0 = 0 := by
  have hloc : locAt 2 2 0 = 0 := by
    unfold locAt linspaceClosed
    norm_num [List.range_succ, List.getD_cons_zero, List.getD_cons_succ]
  unfold colNat colClamp
  rw [hloc]
  have hr : pyRound (0 : ℚ) = 0 := by
    unfold pyRound
    norm_num [Int.fract]
  rw [hr]
  norm_num

theorem colNat_2_2_1 : colNat 2 2 1 = 1 := by
  have hloc : locAt 2 2 1 = 1 := by
    unfold locAt linspaceClosed
    norm_num [List.range_succ, List.getD_cons_zero, List.getD_cons_succ]
  unfold colNat colClamp
  rw [hloc]
  have hr : pyRound (1 : ℚ) = 1 := by
    unfold pyRound
    norm_num [Int.fract]
  rw [hr]
  norm_num

theorem matrixRows_length (rings : List (ℕ × ℕ × Bool)) :
    ∀ width ch : ℕ, (matrixRows rings width ch).length = rings.length := by
  induction rings with
  | nil => intro width ch; rfl
  | cons r rest ih => intro width ch; simp [matrixRows, ih]

/-- C2 (counterexample): for a one-LED ring in a width-2 matrix,
reversing the completed row moves the single channel to column 1, while
the pre-placement index permutation leaves it at column 0: the two
methods do not agree for every ring. -/
theorem reverse_after_ne_permute_before :
    rowCellsFinal 2 1 1 true ≠ rowCells3dStyle 2 1 1 true := by
  have h0 := colNat_2_1_0
  have hA : rowCellsFinal 2 1 1 true = [none, some 1] := by
    have hw : rowWrites 2 1 1 = [(0, 1)] := by
      unfold rowWrites
      rw [show List.range 1 = [0] from rfl]
      simp only [List.map_cons, List.map_nil, h0]
    have hrw : rowCellsFinal 2 1 1 true = (buildRowCells 2 1 1).reverse := rfl
    rw [hrw]
    unfold buildRowCells
    rw [hw]
    rfl
  have hB : rowCells3dStyle 2 1 1 true = [some 1, none] := by
    have hw : rowWrites3dStyle 2 1 1 true = [(0, 1)] := by
      unfold rowWrites3dStyle
      rw [show List.range 1 = [0] from rfl]
      simp only [List.map_cons, List.map_nil, h0]
      rfl
    unfold rowCells3dStyle
    rw [hw]
    rfl
  rw [hA, hB]
  decide

/-- C1 (counterexample): a ring of 3 LEDs in a width-2 matrix is not
rejected: `generate_2d_matrix` silently emits the row "2,3" (the first
two LEDs collide in column 0, the later write wins). -/
theorem overwide_ring_not_rejected :
    generate_2d_matrix [(1, 3, false)] 2 false = "2,3" := by
  have hw : rowWrites 2 1 3 = [(0, 1), (0, 2), (1, 3)] := by
    unfold rowWrites
    rw [show List.range 3 = [0, 1, 2] from rfl]
    simp only [List.map_cons, List.map_nil, colNat_2_3_0, colNat_2_3_1, colNat_2_3_2]
  have hrow : buildRowCells 2 1 3 = [some 2, some 3] := by
    unfold buildRowCells
    rw [hw]
    rfl
  have hfin : rowCellsFinal 2 1 3 false = [some 2, some 3] := by
    rw [show rowCellsFinal 2 1 3 false = buildRowCells 2 1 3 from rfl, hrow]
  unfold generate_2d_matrix
  simp only [matrixRows, hfin]
  rfl

/-- C1 (amended): an overwide ring does not abort 2D generation: for every
ring table, width and flip flag, `generate_2d_matrix` totally computes one
row per ring (overflowing columns are clamped to `W - 1` and collisions
keep the last-written channel) and joins them by `;`. -/
theorem generation_total_one_row_per_ring (rings : List (ℕ × ℕ × Bool))
    (width : ℕ) (do_flip : Bool) :
    (matrixRows rings width 1).length = rings.length
    ∧ generate_2d_matrix rings width do_flip
      = String.intercalate sepSemi
          (if do_flip then (matrixRows rings width 1).reverse
           else matrixRows rings width 1) := by
  exact ⟨matrixRows_length rings width 1, rfl⟩

/-- C8: for the table `{1 ↦ (2, false), 2 ↦ (2, false)}` with matrix
width 2 and vertical flip enabled, the rows are built as `["1,2", "3,4"]`
in ring order and the emitted matrix string is the row-reversed
`"3,4;1,2"`. -/
theorem two_ring_flip_scenario :
    matrixRows [(1, 2, false), (2, 2, false)] 2 1 = ["1,2", "3,4"]
    ∧ generate_2d_matrix [(1, 2, false), (2, 2, false)] 2 true = "3,4;1,2" := by
  have hw1 : rowWrites 2 1 2 = [(0, 1), (1, 2)] := by
    unfold rowWrites
    rw [show List.range 2 = [0, 1] from rfl]
    simp only [List.map_cons, List.map_nil, colNat_2_2_0, colNat_2_2_1]
  have hw3 : rowWrites 2 3 2 = [(0, 3), (1, 4)] := by
    unfold rowWrites
    rw [show List.range 2 = [0, 1] from rfl]
    simp only [List.map_cons, List.map_nil, colNat_2_2_0, colNat_2_2_1]
  have hr1 : rowCellsFinal 2 1 2 false = [some 1, some 2] := by
    rw [show rowCellsFinal 2 1 2 false = buildRowCells 2 1 2 from rfl]
    unfold buildRowCells
    rw [hw1]
    rfl
  have hr3 : rowCellsFinal 2 3 2 false = [some 3, some 4] := by
    rw [show rowCellsFinal 2 3 2 false = buildRowCells 2 3 2 from rfl]
    unfold buildRowCells
    rw [hw3]
    rfl
  have hrows : matrixRows [(1, 2, false), (2, 2, false)] 2 1 = ["1,2", "3,4"] := by
    simp only [matrixRows]
    norm_num
    rw [hr1, hr3]
    constructor <;> rfl
  refine ⟨hrows, ?_⟩
  unfold generate_2d_matrix
  rw [hrows]
  rfl

/-! ### The zigzag permutation of the 3D rasterizer -/

theorem getD_map_range {α : Type} (f : ℕ → α) (d : α) (n j : ℕ) (hj : j < n) :
    ((List.range n).map f).getD j d = f j := by
  rw [List.getD_eq_getElem?_getD, List.getElem?_map, List.getElem?_range hj]
  rfl

theorem pixelIndices_getD_false (count p : ℕ) (hp : p < count) :
    (pixelIndices count false).getD p 0 = p := by
  show (List.range count).getD p 0 = p
  rw [List.getD_eq_getElem?_getD, List.getElem?_range hp]
  rfl

theorem pixelIndices_getD_true (count p : ℕ) (hp : p < count) :
    (pixelIndices count true).getD p 0 = count - 1 - p := by
  show ((List.range count).reverse).getD p 0 = count - 1 - p
  have hp' : p < (List.range count).reverse.length := by simpa using hp
  rw [List.getD_eq_getElem?_getD, List.getElem?_eq_getElem hp', List.getElem_reverse]
  simp

theorem ringPoints_snd (trig : ℚ → ℚ × ℚ) (piF : ℚ) (G : ℕ) (vper gy : ℚ)
    (count : ℕ) (rev : Bool) (ch : ℕ) :
    (ringPoints trig piF G vper gy count rev ch).map Prod.snd
      = (List.range count).map (fun p => ch + (pixelIndices count rev).getD p 0) := by
  unfold ringPoints
  rw [List.map_map]
  rfl

theorem reversed_map_range (count ch : ℕ) :
    (List.range count).map (fun p => ch + (pixelIndices count true).getD p 0)
      = ((List.range count).map (fun q => ch + q)).reverse := by
  apply List.ext_getElem
  · simp
  · intro i h1 h2
    simp only [List.length_map, List.length_range] at h1
    rw [List.getElem_map, List.getElem_range, List.getElem_reverse,
      List.getElem_map, List.getElem_range, pixelIndices_getD_true count i h1]
    simp

/-- C4: in the 3D rasterizer, the slot generated at local index `p` of a
ring starting at channel `s` receives channel `s + p` when not reversed
and `s + (led_count - 1 - p)` when reversed; the multiset of channels a
ring uses is `{s, ..., s + led_count - 1}` either way, and applying the
reversal permutation twice restores the identity assignment. -/
theorem zigzag_channel_assignment (trig : ℚ → ℚ × ℚ) (piF : ℚ) (G : ℕ)
    (vper gy : ℚ) (count : ℕ) (rev : Bool) (ch p : ℕ) (hp : p < count) :
    ((ringPoints trig piF G vper gy count rev ch).map Prod.snd).getD p 0
        = ch + (if rev then count - 1 - p else p)
    ∧ List.Perm ((ringPoints trig piF G vper gy count rev ch).map Prod.snd)
        ((List.range count).map (fun q => ch + q))
    ∧ (pixelIndices count rev).getD ((pixelIndices count rev).getD p 0) 0 = p := by
  refine ⟨?_, ?_, ?_⟩
  · rw [ringPoints_snd, getD_map_range _ 0 count p hp]
    cases rev
    · rw [pixelIndices_getD_false count p hp]
      rfl
    · rw [pixelIndices_getD_true count p hp]
      rfl
  · rw [ringPoints_snd]
    cases rev
    · have heq : (List.range count).map (fun p => ch + (pixelIndices count false).getD p 0)
          = (List.range count).map (fun q => ch + q) := by
        apply List.map_congr_left
        intro q hq
        rw [pixelIndices_getD_false count q (List.mem_range.mp hq)]
      rw [heq]
    · rw [reversed_map_range count ch]
      exact List.reverse_perm _
  · cases rev
    · rw [pixelIndices_getD_false count p hp, pixelIndices_getD_false count p hp]
    · rw [pixelIndices_getD_true count p hp,
        pixelIndices_getD_true count (count - 1 - p) (by omega)]
      omega

/-! ### Clamping keeps every voxel write in bounds -/

theorem clampI_bounds (G : ℕ) (v : ℤ) (hG : 0 < G) :
    0 ≤ clampI G v ∧ clampI G v ≤ (G : ℤ) - 1 := by
  unfold clampI
  constructor
  · exact le_max_left 0 _
  · apply max_le
    · omega
    · exact min_le_left _ _

theorem ringPoints_all_inBounds (trig : ℚ → ℚ × ℚ) (piF : ℚ) (G : ℕ)
    (vper gy : ℚ) (count : ℕ) (rev : Bool) (ch : ℕ) (hG : 0 < G) :
    (ringPoints trig piF G vper gy count rev ch).all (inBoundsB G) = true := by
  rw [List.all_eq_true]
  intro e he
  unfold ringPoints at he
  rcases List.mem_map.mp he with ⟨p, _, rfl⟩
  unfold inBoundsB
  simp only [Bool.and_eq_true, decide_eq_true_eq]
  refine ⟨⟨⟨⟨⟨?_, ?_⟩, ?_⟩, ?_⟩, ?_⟩, ?_⟩ <;>
    first
      | exact (clampI_bounds G _ hG).1
      | exact (clampI_bounds G _ hG).2

theorem solverLoop_all_inBounds (trig : ℚ → ℚ × ℚ) (piF : ℚ) (G : ℕ)
    (vper sy th : ℚ) (flip : Bool) (hG : 0 < G) :
    ∀ (rings : List (ℕ × ℕ × Bool)) (i ch : ℕ),
    (solverLoop trig piF G vper sy th flip i ch rings).all (inBoundsB G) = true := by
  intro rings
  induction rings with
  | nil => intro i ch; rfl
  | cons r rest ih =>
      intro i ch
      show (ringPoints trig piF G vper (gridY sy th vper flip i) r.2.1 r.2.2 ch
          ++ solverLoop trig piF G vper sy th flip (i + 1) (ch + r.2.1) rest).all
          (inBoundsB G) = true
      rw [List.all_append, ringPoints_all_inBounds trig piF G vper _ r.2.1 r.2.2 ch hG,
        ih (i + 1) (ch + r.2.1)]
      rfl

/-- C5: for every positive grid size and every ring table (and any values
of the float approximations of pi, cosine and sine, so in particular for
radii and heights that would land far outside the grid before clamping),
every `(x, y, z)` key written into the 3D voxel map lies within
`[0, G - 1]` on all three axes. -/
theorem voxel_coordinates_in_bounds (trig : ℚ → ℚ × ℚ) (piF : ℚ)
    (rings : List (ℕ × ℕ × Bool)) (G : ℕ) (flip : Bool) (hG : 0 < G) :
    optionAll (inBoundsB G)
      (calculate_physically_accurate_positions trig piF rings G flip) = true := by
  cases rings with
  | nil => rfl
  | cons r rest =>
      show (solverLoop trig piF G (vperOf piF G (maxLedsD (r :: rest)))
          (startYOf G (totalHOf (vperOf piF G (maxLedsD (r :: rest))) (r :: rest).length))
          (totalHOf (vperOf piF G (maxLedsD (r :: rest))) (r :: rest).length)
          flip 0 1 (r :: rest)).all (inBoundsB G) = true
      exact solverLoop_all_inBounds trig piF G _ _ _ flip hG (r :: rest) 0 1

/-- C5 witness: a tiny configuration with out-of-range trig values on a
1-cell grid still writes only in-bounds keys. -/
theorem voxel_coordinates_in_bounds_witness :
    0 < 1
    ∧ optionAll (inBoundsB 1)
        (calculate_physically_accurate_positions (fun _ => (9, 9)) 3
          [(1, 1, false)] 1 false) = true :=
  ⟨by decide, voxel_coordinates_in_bounds (fun _ => (9, 9)) 3 [(1, 1, false)] 1 false (by decide)⟩

/-- C10: the geometry solver fails on the empty ring table (Python's
`max` over zero rings raises), and succeeds on every nonempty table: the
whole pipeline carries the implicit precondition of at least one ring. -/
theorem empty_table_solver_fails (trig : ℚ → ℚ × ℚ) (piF : ℚ) (G : ℕ) (flip : Bool)
    (rings : List (ℕ × ℕ × Bool)) (h : rings ≠ []) :
    get_max_leds [] = none
    ∧ calculate_physically_accurate_positions trig piF [] G flip = none
    ∧ (calculate_physically_accurate_positions trig piF rings G flip).isSome = true := by
  refine ⟨rfl, rfl, ?_⟩
  cases rings with
  | nil => exact absurd rfl h
  | cons r rest => rfl

/-- C10 witness: instantiated at a concrete one-ring table. -/
theorem empty_table_solver_fails_witness :
    ([(1, 1, false)] : List (ℕ × ℕ × Bool)) ≠ []
    ∧ (get_max_leds [] = none
      ∧ calculate_physically_accurate_positions (fun _ => (0, 0)) 3 [] 4 false = none
      ∧ (calculate_physically_accurate_positions (fun _ => (0, 0)) 3
          [(1, 1, false)] 4 false).isSome = true) :=
  ⟨by decide, empty_table_solver_fails (fun _ => (0, 0)) 3 4 false [(1, 1, false)] (by decide)⟩

/-! ### Channel numbering: one running total across all three outputs -/

theorem preCount_zero (rings : List (ℕ × ℕ × Bool)) : preCount rings 0 = 0 := rfl

theorem preCount_cons_succ (r : ℕ × ℕ × Bool) (rest : List (ℕ × ℕ × Bool)) (k : ℕ) :
    preCount (r :: rest) (k + 1) = r.2.1 + preCount rest k := by
  unfold preCount
  rw [List.take_succ_cons, List.map_cons, List.sum_cons]

theorem solverLoop_decomp (trig : ℚ → ℚ × ℚ) (piF : ℚ) (G : ℕ)
    (vper sy th : ℚ) (flip : Bool) :
    ∀ (rings : List (ℕ × ℕ × Bool)) (i ch : ℕ),
    solverLoop trig piF G vper sy th flip i ch rings
      = ((List.range rings.length).map (fun k =>
          ringPoints trig piF G vper (gridY sy th vper flip (i + k))
            (ringCount rings k) (ringRev rings k) (ch + preCount rings k))).flatten := by
  intro rings
  induction rings with
  | nil => intro i ch; rfl
  | cons r rest ih =>
      intro i ch
      show ringPoints trig piF G vper (gridY sy th vper flip i) r.2.1 r.2.2 ch
          ++ solverLoop trig piF G vper sy th flip (i + 1) (ch + r.2.1) rest = _
      rw [ih (i + 1) (ch + r.2.1), List.length_cons, List.range_succ_eq_map,
        List.map_cons, List.flatten_cons, List.map_map]
      congr 1
      congr 1
      apply List.map_congr_left
      intro k _
      simp only [Function.comp_apply, Nat.succ_eq_add_one]
      have h1 : i + (k + 1) = (i + 1) + k := by omega
      have h2 : ringCount (r :: rest) (k + 1) = ringCount rest k := rfl
      have h3 : ringRev (r :: rest) (k + 1) = ringRev rest k := rfl
      have h4 : ch + preCount (r :: rest) (k + 1) = (ch + r.2.1) + preCount rest k := by
        rw [preCount_cons_succ]
        omega
      rw [h1, h2, h3, h4]

theorem matrixRows_decomp :
    ∀ (rings : List (ℕ × ℕ × Bool)) (width ch : ℕ),
    matrixRows rings width ch
      = (List.range rings.length).map (fun k =>
          renderRow (rowCellsFinal width (ch + preCount rings k)
            (ringCount rings k) (ringRev rings k))) := by
  intro rings
  induction rings with
  | nil => intro width ch; rfl
  | cons r rest ih =>
      intro width ch
      show renderRow (rowCellsFinal width ch r.2.1 r.2.2)
          :: matrixRows rest width (ch + r.2.1) = _
      rw [ih width (ch + r.2.1), List.length_cons, List.range_succ_eq_map,
        List.map_cons, List.map_map]
      congr 1
      apply List.map_congr_left
      intro k _
      simp only [Function.comp_apply, Nat.succ_eq_add_one]
      have h2 : ringCount (r :: rest) (k + 1) = ringCount rest k := rfl
      have h3 : ringRev (r :: rest) (k + 1) = ringRev rest k := rfl
      have h4 : ch + preCount (r :: rest) (k + 1) = (ch + r.2.1) + preCount rest k := by
        rw [preCount_cons_succ]
        omega
      rw [h2, h3, h4]

theorem csvStarts_decomp :
    ∀ (rings : List (ℕ × ℕ × Bool)) (led : ℕ),
    csvStarts rings led
      = (List.range rings.length).map (fun k =>
          (led + preCount rings k, led + preCount rings k + ringCount rings k - 1)) := by
  intro rings
  induction rings with
  | nil => intro led; rfl
  | cons r rest ih =>
      intro led
      show (led, led + r.2.1 - 1) :: csvStarts rest (led + r.2.1) = _
      rw [ih (led + r.2.1), List.length_cons, List.range_succ_eq_map,
        List.map_cons, List.map_map]
      congr 1
      apply List.map_congr_left
      intro k _
      simp only [Function.comp_apply, Nat.succ_eq_add_one]
      have h2 : ringCount (r :: rest) (k + 1) = ringCount rest k := rfl
      have h4 : led + preCount (r :: rest) (k + 1) = (led + r.2.1) + preCount rest k := by
        rw [preCount_cons_succ]
        omega
      rw [h2, h4]

theorem csvLines_decomp :
    ∀ (rings : List (ℕ × ℕ × Bool)) (led : ℕ),
    csvLines rings led
      = (List.range rings.length).map (fun k =>
          toString (ringIdAt rings k) ++ sepComma
            ++ (if ringRev rings k then reverseLabel else normalLabel) ++ sepComma
            ++ toString (ringCount rings k) ++ sepComma
            ++ toString (led + preCount rings k) ++ sepComma
            ++ toString (led + preCount rings k + ringCount rings k - 1) ++ lineBreak) := by
  intro rings
  induction rings with
  | nil => intro led; rfl
  | cons r rest ih =>
      intro led
      show (toString r.1 ++ sepComma ++ (if r.2.2 then reverseLabel else normalLabel)
          ++ sepComma ++ toString r.2.1 ++ sepComma ++ toString led
          ++ sepComma ++ toString (led + r.2.1 - 1) ++ lineBreak)
          :: csvLines rest (led + r.2.1) = _
      rw [ih (led + r.2.1), List.length_cons, List.range_succ_eq_map,
        List.map_cons, List.map_map]
      congr 1
      apply List.map_congr_left
      intro k _
      simp only [Function.comp_apply, Nat.succ_eq_add_one]
      have h1 : ringIdAt (r :: rest) (k + 1) = ringIdAt rest k := rfl
      have h2 : ringCount (r :: rest) (k + 1) = ringCount rest k := rfl
      have h3 : ringRev (r :: rest) (k + 1) = ringRev rest k := rfl
      have h4 : led + preCount (r :: rest) (k + 1) = (led + r.2.1) + preCount rest k := by
        rw [preCount_cons_succ]
        omega
      rw [h1, h2, h3, h4]

theorem ringStart_succ (rings : List (ℕ × ℕ × Bool)) (k : ℕ) (hk : k < rings.length) :
    ringStart rings (k + 1) = ringStart rings k + ringCount rings k := by
  unfold ringStart preCount ringCount
  rw [List.take_succ, List.map_append, List.sum_append,
    List.getElem?_eq_getElem hk]
  simp [List.getD_eq_getElem?_getD, List.getElem?_eq_getElem hk]
  omega

theorem preCount_flipRev (rings : List (ℕ × ℕ × Bool)) (k : ℕ) :
    preCount (rings.map (fun r => (r.1, r.2.1, !r.2.2))) k = preCount rings k := by
  unfold preCount
  rw [← List.map_take, List.map_map]
  rfl

theorem calc_cons (trig : ℚ → ℚ × ℚ) (piF : ℚ) (G : ℕ) (flip : Bool)
    (r : ℕ × ℕ × Bool) (rest : List (ℕ × ℕ × Bool)) :
    calculate_physically_accurate_positions trig piF (r :: rest) G flip
      = some (solverLoop trig piF G (vperOf piF G (maxLedsD (r :: rest)))
          (startYOf G (totalHOf (vperOf piF G (maxLedsD (r :: rest))) (r :: rest).length))
          (totalHOf (vperOf piF G (maxLedsD (r :: rest))) (r :: rest).length)
          flip 0 1 (r :: rest)) := rfl

/-- C3: all three outputs number channels by one running total: the ring
at sorted index `k` starts at `1 + Σ_{j<k} led_count_j` in the 3D voxel
map, the 2D matrix and the CSV report; consecutive blocks are contiguous
(hence non-overlapping), the final counter minus 1 is the total LED
count, and the numbering is unchanged by flipping every reversed flag
(and, as the quantified `flip` shows, by the vertical flip). -/
theorem channel_numbering_running_total (trig : ℚ → ℚ × ℚ) (piF : ℚ)
    (G width : ℕ) (flip : Bool) (rings : List (ℕ × ℕ × Bool)) (h : rings ≠ []) :
    calculate_physically_accurate_positions trig piF rings G flip
      = some (((List.range rings.length).map (fun k =>
          ringPoints trig piF G (vperOf piF G (maxLedsD rings))
            (gridY (startYOf G (totalHOf (vperOf piF G (maxLedsD rings)) rings.length))
              (totalHOf (vperOf piF G (maxLedsD rings)) rings.length)
              (vperOf piF G (maxLedsD rings)) flip k)
            (ringCount rings k) (ringRev rings k) (ringStart rings k))).flatten)
    ∧ matrixRows rings width 1
      = (List.range rings.length).map (fun k =>
          renderRow (rowCellsFinal width (ringStart rings k)
            (ringCount rings k) (ringRev rings k)))
    ∧ csvStarts rings 1
      = (List.range rings.length).map (fun k =>
          (ringStart rings k, ringStart rings k + ringCount rings k - 1))
    ∧ csvLines rings 1
      = (List.range rings.length).map (fun k =>
          toString (ringIdAt rings k) ++ sepComma
            ++ (if ringRev rings k then reverseLabel else normalLabel) ++ sepComma
            ++ toString (ringCount rings k) ++ sepComma
            ++ toString (ringStart rings k) ++ sepComma
            ++ toString (ringStart rings k + ringCount rings k - 1) ++ lineBreak)
    ∧ (List.range rings.length).map (fun k => ringStart rings (k + 1))
      = (List.range rings.length).map (fun k => ringStart rings k + ringCount rings k)
    ∧ ringStart rings rings.length = 1 + (rings.map (fun r => r.2.1)).sum
    ∧ (List.range (rings.length + 1)).map
        (fun k => ringStart (rings.map (fun r => (r.1, r.2.1, !r.2.2))) k)
      = (List.range (rings.length + 1)).map (fun k => ringStart rings k) := by
  refine ⟨?_, ?_, ?_, ?_, ?_, ?_, ?_⟩
  · cases rings with
    | nil => exact absurd rfl h
    | cons r rest =>
        rw [calc_cons, solverLoop_decomp]
        congr 1
        congr 1
        apply List.map_congr_left
        intro k _
        have h0 : (0 : ℕ) + k = k := by omega
        rw [h0]
        rfl
  · rw [matrixRows_decomp rings width 1]
    apply List.map_congr_left
    intro k _
    rfl
  · rw [csvStarts_decomp rings 1]
    apply List.map_congr_left
    intro k _
    rfl
  · rw [csvLines_decomp rings 1]
    apply List.map_congr_left
    intro k _
    rfl
  · apply List.map_congr_left
    intro k hk
    exact ringStart_succ rings k (List.mem_range.mp hk)
  · show 1 + ((rings.take rings.length).map (fun r => r.2.1)).sum = _
    rw [List.take_length]
  · apply List.map_congr_left
    intro k _
    show 1 + preCount (rings.map (fun r => (r.1, r.2.1, !r.2.2))) k = _
    rw [preCount_flipRev]
    rfl

/-- C6: the unrounded vertical coordinate of the ring at sorted index `i`
equals `(start_y + total_height) - i*vertical_step` when the flip flag is
set and `start_y + i*vertical_step` otherwise, where
`vertical_step = usable_radius / (max_leds / 2π)` (with the float value
of pi), `usable_radius = G/2 - G/10`,
`total_height = (ring_count - 1)*vertical_step` and
`start_y = (G - total_height)/2`; one boolean flag selects the branch. -/
theorem vertical_coordinate_formula (piF : ℚ) (G : ℕ)
    (rings : List (ℕ × ℕ × Bool)) (flip : Bool) (i : ℕ) :
    gridY (startYOf G (totalHOf (vperOf piF G (maxLedsD rings)) rings.length))
        (totalHOf (vperOf piF G (maxLedsD rings)) rings.length)
        (vperOf piF G (maxLedsD rings)) flip i
      = (if flip
          then (((G : ℚ) - ((rings.length : ℚ) - 1)
                * (((G : ℚ) / 2 - (G : ℚ) * (1/10)) / ((maxLedsD rings : ℚ) / (2 * piF)))) / 2
              + ((rings.length : ℚ) - 1)
                * (((G : ℚ) / 2 - (G : ℚ) * (1/10)) / ((maxLedsD rings : ℚ) / (2 * piF))))
              - (i : ℚ)
                * (((G : ℚ) / 2 - (G : ℚ) * (1/10)) / ((maxLedsD rings : ℚ) / (2 * piF)))
          else ((G : ℚ) - ((rings.length : ℚ) - 1)
                * (((G : ℚ) / 2 - (G : ℚ) * (1/10)) / ((maxLedsD rings : ℚ) / (2 * piF)))) / 2
              + (i : ℚ)
                * (((G : ℚ) / 2 - (G : ℚ) * (1/10)) / ((maxLedsD rings : ℚ) / (2 * piF)))) := by
  unfold gridY startYOf totalHOf vperOf usableRadius paddingOf radiusInLedUnits
  rfl

/-- C2 witness: for a 2-LED ring in a width-2 matrix (positions 0 and 1,
no rounding ties), the two reversal methods agree. -/
theorem reverse_after_eq_permute_before_witness :
    rowCellsFinal 2 1 2 true = rowCells3dStyle 2 1 2 true :=
  reverse_after_eq_permute_before 2 1 2 true (by decide) (by decide) (by
    intro q hq
    have hl : linspaceClosed 0 (((2 : ℕ) : ℚ) - 1) 2 = [0, 1] := by
      unfold linspaceClosed
      norm_num [List.range_succ]
    rw [hl] at hq
    rcases List.mem_cons.mp hq with rfl | hq'
    · rw [Int.fract_zero]
      norm_num
    · rcases List.mem_cons.mp hq' with rfl | hq''
      · rw [Int.fract_one]
        norm_num
      · exact absurd hq'' (List.not_mem_nil q))

/-- C4 witness: a reversed 3-LED ring starting at channel 7. -/
theorem zigzag_channel_assignment_witness :
    (0 < 3)
    ∧ (((ringPoints (fun _ => (0, 0)) 3 5 1 0 3 true 7).map Prod.snd).getD 0 0
        = 7 + (if true then 3 - 1 - 0 else 0)
      ∧ List.Perm ((ringPoints (fun _ => (0, 0)) 3 5 1 0 3 true 7).map Prod.snd)
          ((List.range 3).map (fun q => 7 + q))
      ∧ (pixelIndices 3 true).getD ((pixelIndices 3 true).getD 0 0) 0 = 0) :=
  ⟨by decide, zigzag_channel_assignment (fun _ => (0, 0)) 3 5 1 0 3 true 7 0 (by decide)⟩

/-- C7 witness: a 2-LED ring filling a width-2 matrix row exactly. -/
theorem matrix_row_endpoints_witness :
    (1 < 2) ∧ (2 ≤ 2)
    ∧ ((linspaceClosed 0 (((2 : ℕ) : ℚ) - 1) 2).length = 2
      ∧ locAt 2 2 0 = 0
      ∧ locAt 2 2 (2 - 1) = ((2 : ℕ) : ℚ) - 1
      ∧ cellAt (buildRowCells 2 1 2) 0 = some 1
      ∧ cellAt (buildRowCells 2 1 2) (2 - 1) = some (1 + (2 - 1))
      ∧ (if 2 = 2
          then buildRowCells 2 1 2 = (List.range 2).map (fun j => some (1 + j))
          else True)) :=
  ⟨by decide, by decide, matrix_row_endpoints 2 1 2 (by decide) (by decide)⟩

/-- C9 witness: a 2-LED ring in a width-3 matrix. -/
theorem matrix_columns_strictly_increasing_witness :
    (1 ≤ 2) ∧ (2 ≤ 3)
    ∧ (List.Pairwise (· < ·) ((rowWrites 3 1 2).map Prod.fst)
      ∧ ((List.range 2).all
          (fun i => decide (pyRound (locAt 3 2 i) < ((3 : ℕ) : ℤ))) = true)
      ∧ ((rowWrites 3 1 2).map Prod.fst).Nodup
      ∧ (rowCellsFinal 3 1 2 false).countP (fun c => c.isSome) = 2) :=
  ⟨by decide, by decide, matrix_columns_strictly_increasing 3 1 2 false (by decide) (by decide)⟩

/-- C3 witness: a single-ring table instantiation of the running-total
statement. -/
theorem channel_numbering_running_total_witness :
    (([(1, 1, false)] : List (ℕ × ℕ × Bool)) ≠ [])
    ∧ (calculate_physically_accurate_positions (fun _ => (0, 1)) 3 [(1, 1, false)] 4 false
        = some (((List.range 1).map (fun k =>
            ringPoints (fun _ => (0, 1)) 3 4 (vperOf 3 4 (maxLedsD [(1, 1, false)]))
              (gridY (startYOf 4 (totalHOf (vperOf 3 4 (maxLedsD [(1, 1, false)])) 1))
                (totalHOf (vperOf 3 4 (maxLedsD [(1, 1, false)])) 1)
                (vperOf 3 4 (maxLedsD [(1, 1, false)])) false k)
              (ringCount [(1, 1, false)] k) (ringRev [(1, 1, false)] k)
              (ringStart [(1, 1, false)] k))).flatten)
      ∧ matrixRows [(1, 1, false)] 5 1
        = (List.range 1).map (fun k =>
            renderRow (rowCellsFinal 5 (ringStart [(1, 1, false)] k)
              (ringCount [(1, 1, false)] k) (ringRev [(1, 1, false)] k)))
      ∧ csvStarts [(1, 1, false)] 1
        = (List.range 1).map (fun k =>
            (ringStart [(1, 1, false)] k,
              ringStart [(1, 1, false)] k + ringCount [(1, 1, false)] k - 1))
      ∧ csvLines [(1, 1, false)] 1
        = (List.range 1).map (fun k =>
            toString (ringIdAt [(1, 1, false)] k) ++ sepComma
              ++ (if ringRev [(1, 1, false)] k then reverseLabel else normalLabel)
              ++ sepComma ++ toString (ringCount [(1, 1, false)] k) ++ sepComma
              ++ toString (ringStart [(1, 1, false)] k) ++ sepComma
              ++ toString (ringStart [(1, 1, false)] k
                  + ringCount [(1, 1, false)] k - 1) ++ lineBreak)
      ∧ (List.range 1).map (fun k => ringStart [(1, 1, false)] (k + 1))
        = (List.range 1).map (fun k =>
            ringStart [(1, 1, false)] k + ringCount [(1, 1, false)] k)
      ∧ ringStart [(1, 1, false)] 1
        = 1 + (([(1, 1, false)] : List (ℕ × ℕ × Bool)).map (fun r => r.2.1)).sum
      ∧ (List.range 2).map
          (fun k => ringStart (([(1, 1, false)] : List (ℕ × ℕ × Bool)).map
            (fun r => (r.1, r.2.1, !r.2.2))) k)
        = (List.range 2).map (fun k => ringStart [(1, 1, false)] k)) :=
  ⟨by decide, channel_numbering_running_total (fun _ => (0, 1)) 3 4 5 false
    [(1, 1, false)] (by decide)⟩
